import Mathlib

/-!
Verification of the Kunpeng-AED real-time streaming pipeline.

Shallow embedding of the Python sources `app/stream.py`, `app/server.py`
and `app/infer_tflite.py`.  Audio samples and class scores are modelled as
rationals (`ℚ`): only equality and order of sample values matter to the
properties below, never floating-point rounding.  NumPy arrays become
Lean lists; `np.roll(a, -h)` with `h ≤ a.length` becomes
`a.drop h ++ a.take h`; slice assignment becomes list surgery.
-/

namespace AED

/-! ## Windower (`AudioStream._update_buffer`, stream.py lines 149-159)

`self.buffer = np.roll(self.buffer, -self.hop_size)` followed by
`self.buffer[-self.hop_size:] = new_data[:self.hop_size]`.
-/

/-- `np.roll(l, -h)` for `h ≤ l.length`: rotate left by `h`. -/
def rollLeft (h : Nat) (l : List ℚ) : List ℚ :=
  l.drop h ++ l.take h

/-- `buffer[-hop:] = new_data[:hop]`: keep the leading `length - hop`
entries and overwrite the trailing `hop` entries. -/
def setTrailing (hop : Nat) (l new : List ℚ) : List ℚ :=
  l.take (l.length - hop) ++ new.take hop

/-- `AudioStream._update_buffer`: roll the buffer left by `hop_size`, then
write the chunk into the trailing `hop_size` positions.  The frame emitted
to the queue is a copy of the new buffer, i.e. this very value. -/
def update_buffer (hop : Nat) (buffer chunk : List ℚ) : List ℚ :=
  setTrailing hop (rollLeft hop buffer) chunk

/-- The sequence of frames produced by appending `chunks` one by one,
threading the rolling buffer through.  Each produced frame is also the
buffer state seen by the next append. -/
def windowerFrames (hop : Nat) (buffer : List ℚ) : List (List ℚ) → List (List ℚ)
  | [] => []
  | c :: cs =>
    update_buffer hop buffer c :: windowerFrames hop (update_buffer hop buffer c) cs

/-! ## Frame channel (`queue.Queue(maxsize=10)`, `put_nowait`, `get_frame`) -/

/-- `self.frame_queue = queue.Queue(maxsize=10)` (stream.py line 51). -/
def channelCapacity : Nat := 10

/-- `frame_queue.put_nowait(frame)` wrapped in `try/except queue.Full`
(stream.py lines 155-159): if the queue is below capacity the frame is
appended at the back and the call reports success; otherwise the frame is
dropped (a warning is logged) and the queue is unchanged. -/
def put_nowait (cap : Nat) (q : List α) (a : α) : List α × Bool :=
  if q.length < cap then (q ++ [a], true) else (q, false)

/-- `AudioStream.get_frame` (stream.py lines 82-95): pop the front frame,
or return `none` when the queue stays empty for the whole timeout. -/
def get_frame (q : List α) : Option α × List α :=
  match q with
  | [] => (none, [])
  | f :: rest => (some f, rest)

/-- Enqueue a whole batch of frames with `put_nowait`, returning the final
queue and the list of dropped frames in order. -/
def enqueueAll (cap : Nat) (q : List α) : List α → List α × List α
  | [] => (q, [])
  | a :: rest =>
    let r := put_nowait cap q a
    let next := enqueueAll cap r.1 rest
    (next.1, (if r.2 then [] else [a]) ++ next.2)

/-- One producer/consumer operation on the frame channel. -/
inductive ChanOp (α : Type) where
  | enq (a : α)
  | deq

/-- Observable history of a frame channel: current queue contents, every
frame ever offered by the producer, every frame delivered to the consumer. -/
structure ChanTrace (α : Type) where
  q : List α
  offered : List α
  delivered : List α

/-- One step of the channel: `enq` is `put_nowait` (non-blocking, lossy),
`deq` is `get_frame` (a `none` result delivers nothing). -/
def chanStep (cap : Nat) (t : ChanTrace α) : ChanOp α → ChanTrace α
  | .enq a =>
    let r := put_nowait cap t.q a
    { t with q := r.1, offered := t.offered ++ [a] }
  | .deq =>
    match get_frame t.q with
    | (none, q2) => { t with q := q2 }
    | (some f, q2) => { t with q := q2, delivered := t.delivered ++ [f] }

/-- Run a sequence of channel operations. -/
def runChan (cap : Nat) (t : ChanTrace α) (ops : List (ChanOp α)) : ChanTrace α :=
  ops.foldl (chanStep cap) t

/-! ## File-replay worker (`AudioStream._wav_worker`, stream.py lines 122-147)

`idx = 0; while self.is_running and idx < len(audio_data): chunk =
audio_data[idx:idx+hop]; pad short chunk; _update_buffer(chunk);
idx += hop; threading.Event().wait(self.hop_duration)`.

The attribute read `self.hop_duration` is the loop's undoing:
`__init__` (stream.py line 45) stores only
`self.hop_size = int(hop_duration * sample_rate)` and never assigns
`self.hop_duration`, so the wait on line 142 raises `AttributeError` the
first time it executes.  The exception propagates to the `except` branch
at lines 145-147, which logs "WAV playback error" and clears
`is_running`.  Hence on a non-empty asset the loop body runs exactly
once: the first chunk is taken (and zero-padded if the asset is shorter
than `hop_size`), appended via `_update_buffer`, and then the worker
dies — no wait ever completes and the run ends on the error path.  Only
an empty asset skips the loop and reaches the clean
"WAV playback finished" exit. -/

/-- Outcome of one run of `AudioStream._wav_worker`: the chunks appended
to the windower in order, the number of `wait(hop_duration)` calls that
completed, and whether the run ended in the `except` branch. -/
structure WavRun where
  appended : List (List ℚ)
  waits : Nat
  errored : Bool
  deriving DecidableEq

/-- `AudioStream._wav_worker` as the code actually executes on an
in-memory asset `data` with the stream running: an empty asset finishes
cleanly with nothing appended; a non-empty asset has its first chunk
taken, padded if shorter than `hop_size`, and appended, after which
`threading.Event().wait(self.hop_duration)` raises `AttributeError`
(the attribute is never set) and the `except` branch ends the run. -/
def wav_worker (hop : Nat) (data : List ℚ) : WavRun :=
  if data.length = 0 then { appended := [], waits := 0, errored := false }
  else
    let chunk := data.take hop
    let padded := if chunk.length < hop
      then chunk ++ List.replicate (hop - chunk.length) 0 else chunk
    { appended := [padded], waits := 0, errored := true }

/-! ## Basic windower lemmas -/

theorem rollLeft_length (h : Nat) (l : List ℚ) :
    (rollLeft h l).length = l.length := by
  simp [rollLeft]
  omega

theorem update_buffer_eq (hop : Nat) (buffer chunk : List ℚ)
    (hb : hop ≤ buffer.length) (hc : chunk.length = hop) :
    update_buffer hop buffer chunk = buffer.drop hop ++ chunk := by
  unfold update_buffer setTrailing
  rw [rollLeft_length]
  unfold rollLeft
  have hlen : buffer.length - hop = (buffer.drop hop).length := by
    simp
  rw [hlen, List.take_left, ← hc, List.take_length]

theorem update_buffer_length (hop : Nat) (buffer chunk : List ℚ)
    (hb : hop ≤ buffer.length) (hc : chunk.length = hop) :
    (update_buffer hop buffer chunk).length = buffer.length := by
  rw [update_buffer_eq hop buffer chunk hb hc]
  simp [hc]
  omega

theorem update_buffer_drop (hop : Nat) (buffer chunk : List ℚ)
    (hb : hop ≤ buffer.length) (hc : chunk.length = hop) :
    (update_buffer hop buffer chunk).drop (buffer.length - hop) = chunk := by
  rw [update_buffer_eq hop buffer chunk hb hc]
  have hlen : buffer.length - hop = (buffer.drop hop).length := by simp
  rw [hlen, List.drop_left]

theorem update_buffer_take (hop : Nat) (buffer chunk : List ℚ)
    (hb : hop ≤ buffer.length) (hc : chunk.length = hop) :
    (update_buffer hop buffer chunk).take (buffer.length - hop) = buffer.drop hop := by
  rw [update_buffer_eq hop buffer chunk hb hc]
  have hlen : buffer.length - hop = (buffer.drop hop).length := by simp
  rw [hlen, List.take_left]

theorem windowerFrames_length (hop : Nat) (buffer : List ℚ) (chunks : List (List ℚ)) :
    (windowerFrames hop buffer chunks).length = chunks.length := by
  induction chunks generalizing buffer with
  | nil => rfl
  | cons c cs ih => simp [windowerFrames, ih]

/-- C1: every frame produced by appending a sequence of `hop_size`-length
chunks through `AudioStream._update_buffer` to a rolling buffer of length
`window_size` (with `hop_size ≤ window_size`) has length exactly
`window_size`; its trailing `hop_size` samples are the chunk just
appended; and its leading `window_size - hop_size` samples are the
previous buffer contents shifted left by `hop_size` (the oldest `hop_size`
samples discarded). -/
theorem c1_windower_rolling_buffer
    (window hop : Nat) (buffer : List ℚ) (chunks : List (List ℚ))
    (hhw : hop ≤ window) (hb : buffer.length = window)
    (hc : ∀ c ∈ chunks, c.length = hop) :
    ∀ i, i < chunks.length →
      ((windowerFrames hop buffer chunks).getD i []).length = window ∧
      ((windowerFrames hop buffer chunks).getD i []).drop (window - hop)
        = chunks.getD i [] ∧
      ((windowerFrames hop buffer chunks).getD i []).take (window - hop)
        = (((buffer :: windowerFrames hop buffer chunks).getD i []).drop hop) := by
  induction chunks generalizing buffer with
  | nil => intro i hi; simp at hi
  | cons c cs ih =>
    intro i hi
    have hbl : hop ≤ buffer.length := hb ▸ hhw
    have hcl : c.length = hop := hc c (by simp)
    have hb2 : (update_buffer hop buffer c).length = window := by
      rw [update_buffer_length hop buffer c hbl hcl, hb]
    match i with
    | 0 =>
      refine ⟨hb2, ?_, ?_⟩
      · have := update_buffer_drop hop buffer c hbl hcl
        rw [hb] at this
        simpa [windowerFrames] using this
      · have := update_buffer_take hop buffer c hbl hcl
        rw [hb] at this
        simpa [windowerFrames] using this
    | i + 1 =>
      have hi2 : i < cs.length := by simpa using hi
      have := ih (update_buffer hop buffer c) hb2
        (fun d hd => hc d (by simp [hd])) i hi2
      simpa [windowerFrames] using this

/-- C1 witness: two chunks of length 2 through a buffer of length 4. -/
theorem c1_witness :
    ((windowerFrames 2 [0, 0, 0, 0] [[1, 2], [3, 4]]).getD 1 []).length = 4 ∧
    ((windowerFrames 2 [0, 0, 0, 0] [[1, 2], [3, 4]]).getD 1 []).drop 2 = [3, 4] ∧
    ((windowerFrames 2 [0, 0, 0, 0] [[1, 2], [3, 4]]).getD 1 []).take 2
      = (([0, 0, 0, 0] :: windowerFrames 2 [0, 0, 0, 0] [[1, 2], [3, 4]]).getD 1 []).drop 2 :=
  c1_windower_rolling_buffer 4 2 [0, 0, 0, 0] [[1, 2], [3, 4]]
    (by decide) (by decide) (by decide) 1 (by decide)

/-! ## Frame-channel lemmas -/

theorem enqueueAll_spec (cap : Nat) (fs : List α) :
    ∀ q : List α, q.length ≤ cap →
      enqueueAll cap q fs = ((q ++ fs).take cap, (q ++ fs).drop cap) := by
  induction fs with
  | nil =>
    intro q hq
    simp [enqueueAll, List.take_of_length_le hq, List.drop_eq_nil_of_le hq]
  | cons a rest ih =>
    intro q hq
    by_cases hlt : q.length < cap
    · have := ih (q ++ [a]) (by simpa using hlt)
      simp only [enqueueAll, put_nowait, if_pos hlt, this]
      simp
    · have hcap : q.length = cap := by omega
      simp only [enqueueAll, put_nowait, if_neg hlt, ih q hq]
      subst hcap
      simp [List.take_left, List.drop_left]

theorem runChan_inv (cap : Nat) (q₀ : List α) (ops : List (ChanOp α)) :
    ∀ t : ChanTrace α,
      List.Sublist (t.delivered ++ t.q) (q₀ ++ t.offered) →
      List.Sublist ((runChan cap t ops).delivered ++ (runChan cap t ops).q)
        (q₀ ++ (runChan cap t ops).offered) := by
  induction ops with
  | nil => intro t h; exact h
  | cons op rest ih =>
    intro t h
    obtain ⟨q, off, del⟩ := t
    have step : List.Sublist ((chanStep cap ⟨q, off, del⟩ op).delivered
          ++ (chanStep cap ⟨q, off, del⟩ op).q)
        (q₀ ++ (chanStep cap ⟨q, off, del⟩ op).offered) := by
      cases op with
      | enq a =>
        simp only [chanStep, put_nowait]
        by_cases hlt : q.length < cap
        · simp only [if_pos hlt]
          have h2 : List.Sublist ((del ++ q) ++ [a]) ((q₀ ++ off) ++ [a]) :=
            h.append (List.Sublist.refl [a])
          simpa [List.append_assoc] using h2
        · simp only [if_neg hlt]
          refine h.trans ?_
          rw [← List.append_assoc]
          exact List.sublist_append_left (q₀ ++ off) [a]
      | deq =>
        cases q with
        | nil => simpa [chanStep, get_frame] using h
        | cons f restq =>
          simp only [chanStep, get_frame]
          simpa [List.append_assoc] using h
    exact ih (chanStep cap ⟨q, off, del⟩ op) step

theorem runChan_deq_offered (cap : Nat) (ops : List (ChanOp α))
    (hops : ∀ op ∈ ops, op = ChanOp.deq) :
    ∀ t : ChanTrace α, (runChan cap t ops).offered = t.offered := by
  induction ops with
  | nil => intro t; rfl
  | cons op rest ih =>
    intro t
    have hop : op = ChanOp.deq := hops op (by simp)
    subst hop
    have hrest : ∀ op ∈ rest, op = ChanOp.deq := fun op h => hops op (by simp [h])
    obtain ⟨q, off, del⟩ := t
    have hstep := ih hrest (chanStep cap ⟨q, off, del⟩ ChanOp.deq)
    refine hstep.trans ?_
    cases q with
    | nil => simp [chanStep, get_frame]
    | cons f restq => simp [chanStep, get_frame]

/-- C3: offering more than `capacity` frames to the frame channel before
any dequeue never blocks the producer; the channel retains exactly the
first `capacity` frames in their original relative order, the overflow
frames (the newest ones at the time they are offered) are reported as
dropped, and dropped frames are never delivered by later dequeues. -/
theorem c3_channel_overflow_drops_newest (frames : List (List ℚ))
    (h : channelCapacity ≤ frames.length) :
    (enqueueAll channelCapacity [] frames).1 = frames.take channelCapacity ∧
    (enqueueAll channelCapacity [] frames).1.length = channelCapacity ∧
    (enqueueAll channelCapacity [] frames).2 = frames.drop channelCapacity ∧
    (frames.Nodup →
      ∀ f ∈ (enqueueAll channelCapacity [] frames).2,
        f ∉ (enqueueAll channelCapacity [] frames).1) ∧
    (∀ ops : List (ChanOp (List ℚ)), (∀ op ∈ ops, op = ChanOp.deq) →
      List.Sublist
        (runChan channelCapacity
          ⟨(enqueueAll channelCapacity [] frames).1, [], []⟩ ops).delivered
        (enqueueAll channelCapacity [] frames).1) := by
  have hspec := enqueueAll_spec channelCapacity frames [] (by simp)
  simp only [List.nil_append] at hspec
  rw [hspec]
  refine ⟨rfl, by simp [h], rfl, ?_, ?_⟩
  · intro hnd f hfd hft
    have hsplit : frames.take channelCapacity ++ frames.drop channelCapacity = frames :=
      List.take_append_drop _ _
    have hnd2 : (frames.take channelCapacity ++ frames.drop channelCapacity).Nodup := by
      rw [hsplit]; exact hnd
    have hdisj := (List.nodup_append.mp hnd2).2.2
    exact hdisj hft hfd
  · intro ops hops
    have hinv := runChan_inv channelCapacity (frames.take channelCapacity) ops
      ⟨frames.take channelCapacity, [], []⟩ (by simp)
    have hoff := runChan_deq_offered channelCapacity ops hops
      ⟨frames.take channelCapacity, [], []⟩
    rw [hoff] at hinv
    simp only [List.append_nil] at hinv
    exact (List.sublist_append_left _ _).trans hinv

/-- C3 witness: 11 distinct frames into a capacity-10 channel. -/
theorem c3_witness :
    (enqueueAll channelCapacity []
        [[(0 : ℚ)], [1], [2], [3], [4], [5], [6], [7], [8], [9], [10]]).1
      = [[(0 : ℚ)], [1], [2], [3], [4], [5], [6], [7], [8], [9]] ∧
    (enqueueAll channelCapacity []
        [[(0 : ℚ)], [1], [2], [3], [4], [5], [6], [7], [8], [9], [10]]).2
      = [[(10 : ℚ)]] := by
  have := c3_channel_overflow_drops_newest
    [[(0 : ℚ)], [1], [2], [3], [4], [5], [6], [7], [8], [9], [10]] (by decide)
  exact ⟨this.1.trans (by decide), this.2.2.1.trans (by decide)⟩

/-- C4: for every interleaving of enqueue (`put_nowait`) and dequeue
(`get_frame`) operations starting from an empty channel, the sequence of
delivered frames is an order-preserving subsequence of the sequence of
offered frames (no reordering, no duplication, at-most-once delivery),
and `get_frame` on an empty queue returns `none` rather than raising. -/
theorem c4_fifo_sublist_no_duplication (cap : Nat) (ops : List (ChanOp (List ℚ))) :
    List.Sublist (runChan cap ⟨[], [], []⟩ ops).delivered
      (runChan cap ⟨[], [], []⟩ ops).offered ∧
    get_frame ([] : List (List ℚ)) = (none, []) := by
  refine ⟨?_, rfl⟩
  have hinv := runChan_inv cap [] ops ⟨[], [], []⟩ (by simp)
  simp only [List.nil_append] at hinv
  exact (List.sublist_append_left _ _).trans hinv

/-! ## File-replay worker theorems -/

/-- C5 (code bug): the claimed paced full replay does not happen.  On
the 5-sample asset with `hop_size = 2` the worker appends exactly one
chunk instead of the claimed `⌈5/2⌉ = 3`, completes zero hop-duration
waits instead of one per chunk, and exits through the `except` branch
instead of stopping cleanly at end-of-file — because
`threading.Event().wait(self.hop_duration)` (stream.py line 142) reads an
attribute `__init__` never sets and raises `AttributeError` on the first
iteration. -/
theorem c5_wav_worker_attribute_error :
    (wav_worker 2 [1, 2, 3, 4, 5]).appended.length = 1 ∧
    (5 + 2 - 1) / 2 = 3 ∧
    (wav_worker 2 [1, 2, 3, 4, 5]).waits = 0 ∧
    (wav_worker 2 [1, 2, 3, 4, 5]).errored = true ∧
    (wav_worker 2 [1, 2, 3, 4, 5]).appended ≠ [[1, 2], [3, 4], [5, 0]] := by
  refine ⟨by decide, by decide, by decide, by decide, by decide⟩

/-- C6 (code bug): the padded final chunk of a multi-chunk asset is
never appended.  On the asset `[1, 2, 3, 4]` with `hop_size = 3` the
worker appends only the first chunk `[1, 2, 3]` and then dies from the
`hop_duration` `AttributeError`, so the padded final chunk `[4, 0, 0]`
never reaches the buffer and the run ends on the error path, contrary to
the claimed normal behaviour.  The padding logic itself (stream.py lines
137-138) is correct and does run when the partial chunk comes first: an
asset `[1]` shorter than `hop_size` appends `[1, 0, 0]` before the
error. -/
theorem c6_final_chunk_unreachable :
    (wav_worker 3 [1, 2, 3, 4]).appended = [[1, 2, 3]] ∧
    (wav_worker 3 [1, 2, 3, 4]).errored = true ∧
    [(4 : ℚ), 0, 0] ∉ (wav_worker 3 [1, 2, 3, 4]).appended ∧
    (wav_worker 3 [1]).appended = [[1, 0, 0]] := by
  refine ⟨by decide, by decide, by decide, by decide⟩

/-! ## Processing loop (`processing_loop`, server.py lines 79-135)

`while is_running: try: frame = get_frame(1.0); if None: continue;
features; predict; top_k; cpu; build result; emit; frame_count += 1
except Exception: log; sleep(0.1)`.  One iteration is driven by what the
environment hands the loop body: no frame within the timeout, a
successful pass through steps 2-7, or an exception raised anywhere in
the `try` block. -/

/-- Data produced by one successful pass through feature extraction,
inference, top-k and CPU sampling. -/
structure IterPayload where
  topClass : String
  confidence : ℚ
  latencyMs : ℚ
  cpuPercent : ℚ
  deriving DecidableEq

/-- Environment outcome of one iteration of the processing loop. -/
inductive IterInput where
  | noFrame
  | ok (p : IterPayload)
  | err
  deriving DecidableEq

/-- The record emitted to connected clients (server.py lines 108-120). -/
structure ResultRecord where
  frameId : Nat
  topClass : String
  confidence : ℚ
  latencyMs : ℚ
  cpuPercent : ℚ
  deriving DecidableEq

/-- Build the result dict for frame number `n` (server.py lines 108-117). -/
def mkRecord (n : Nat) (p : IterPayload) : ResultRecord :=
  { frameId := n
    topClass := p.topClass
    confidence := p.confidence
    latencyMs := p.latencyMs
    cpuPercent := p.cpuPercent }

/-- Mutable state of `processing_loop`: the module-level `is_running`
flag, the local `frame_count`, the records emitted so far, and the number
of 100 ms recovery sleeps performed by the `except` branch. -/
structure LoopState where
  running : Bool
  frameCount : Nat
  emitted : List ResultRecord
  slept : Nat
  deriving DecidableEq

/-- One iteration of the loop body.  A missing frame just continues; a
successful pass emits one record and increments `frame_count`; an
exception is caught, logged, and answered with a 100 ms sleep — it
touches neither `is_running` nor `frame_count`. -/
def loopStep (s : LoopState) : IterInput → LoopState
  | .noFrame => s
  | .ok p =>
    { s with
      frameCount := s.frameCount + 1
      emitted := s.emitted ++ [mkRecord s.frameCount p] }
  | .err => { s with slept := s.slept + 1 }

/-- `while is_running:` — run iterations while the flag is set. -/
def runLoop (s : LoopState) : List IterInput → LoopState
  | [] => s
  | i :: rest => if s.running then runLoop (loopStep s i) rest else s

/-- Number of successful iterations among the inputs. -/
def countOk : List IterInput → Nat
  | [] => 0
  | .ok _ :: rest => countOk rest + 1
  | .noFrame :: rest => countOk rest
  | .err :: rest => countOk rest

/-- Number of failing iterations among the inputs. -/
def countErr : List IterInput → Nat
  | [] => 0
  | .err :: rest => countErr rest + 1
  | .noFrame :: rest => countErr rest
  | .ok _ :: rest => countErr rest

/-- The records the loop is expected to emit: one per successful
iteration, with consecutive frame numbers starting at `n`. -/
def expectedRecords (n : Nat) : List IterInput → List ResultRecord
  | [] => []
  | .ok p :: rest => mkRecord n p :: expectedRecords (n + 1) rest
  | .noFrame :: rest => expectedRecords n rest
  | .err :: rest => expectedRecords n rest

theorem runLoop_spec :
    ∀ (inputs : List IterInput) (init : LoopState), init.running = true →
      (runLoop init inputs).running = true ∧
      (runLoop init inputs).frameCount = init.frameCount + countOk inputs ∧
      (runLoop init inputs).emitted
        = init.emitted ++ expectedRecords init.frameCount inputs ∧
      (runLoop init inputs).slept = init.slept + countErr inputs := by
  intro inputs
  induction inputs with
  | nil =>
    intro init hrun
    exact ⟨hrun, by simp [runLoop, countOk], by simp [runLoop, expectedRecords],
      by simp [runLoop, countErr]⟩
  | cons i rest ih =>
    intro init hrun
    have hstep : (loopStep init i).running = init.running := by
      cases i <;> rfl
    have hrec := ih (loopStep init i) (hstep.trans hrun)
    rw [runLoop, if_pos hrun]
    cases i with
    | noFrame =>
      simpa [loopStep, countOk, countErr, expectedRecords] using hrec
    | ok p =>
      refine ⟨hrec.1, ?_, ?_, ?_⟩
      · rw [hrec.2.1]
        simp [loopStep, countOk]
        omega
      · rw [hrec.2.2.1]
        simp [loopStep, expectedRecords]
      · rw [hrec.2.2.2]
        simp [loopStep, countErr]
    | err =>
      refine ⟨hrec.1, ?_, ?_, ?_⟩
      · rw [hrec.2.1]
        simp [loopStep, countOk]
      · rw [hrec.2.2.1]
        simp [loopStep, expectedRecords]
      · rw [hrec.2.2.2]
        simp [loopStep, countErr]
        omega

/-- C2: every exception raised inside one iteration of the processing
loop is caught and answered with a 100 ms sleep; it never terminates the
loop, never changes the running flag, and a record is still emitted for
every non-failing iteration (with consecutive frame numbers), so only an
external stop request can end the loop. -/
theorem c2_loop_survives_exceptions (init : LoopState) (inputs : List IterInput)
    (hrun : init.running = true) :
    (∀ (s : LoopState) (i : IterInput), (loopStep s i).running = s.running) ∧
    (runLoop init inputs).running = true ∧
    (runLoop init inputs).emitted
      = init.emitted ++ expectedRecords init.frameCount inputs ∧
    (runLoop init inputs).frameCount = init.frameCount + countOk inputs ∧
    (runLoop init inputs).slept = init.slept + countErr inputs := by
  have h := runLoop_spec inputs init hrun
  exact ⟨fun s i => by cases i <;> rfl, h.1, h.2.2.1, h.2.1, h.2.2.2⟩

/-- C2 witness: two successful iterations around one failing one; both
records are emitted, the failure only sleeps, and the loop stays running. -/
theorem c2_witness :
    (∀ (s : LoopState) (i : IterInput), (loopStep s i).running = s.running) ∧
    (runLoop ⟨true, 0, [], 0⟩
      [IterInput.ok ⟨"Speech", 1, 2, 3⟩, IterInput.err,
        IterInput.ok ⟨"Music", 4, 5, 6⟩]).running = true ∧
    (runLoop ⟨true, 0, [], 0⟩
      [IterInput.ok ⟨"Speech", 1, 2, 3⟩, IterInput.err,
        IterInput.ok ⟨"Music", 4, 5, 6⟩]).emitted
      = [] ++ expectedRecords 0
          [IterInput.ok ⟨"Speech", 1, 2, 3⟩, IterInput.err,
            IterInput.ok ⟨"Music", 4, 5, 6⟩] ∧
    (runLoop ⟨true, 0, [], 0⟩
      [IterInput.ok ⟨"Speech", 1, 2, 3⟩, IterInput.err,
        IterInput.ok ⟨"Music", 4, 5, 6⟩]).frameCount
      = 0 + countOk
          [IterInput.ok ⟨"Speech", 1, 2, 3⟩, IterInput.err,
            IterInput.ok ⟨"Music", 4, 5, 6⟩] ∧
    (runLoop ⟨true, 0, [], 0⟩
      [IterInput.ok ⟨"Speech", 1, 2, 3⟩, IterInput.err,
        IterInput.ok ⟨"Music", 4, 5, 6⟩]).slept
      = 0 + countErr
          [IterInput.ok ⟨"Speech", 1, 2, 3⟩, IterInput.err,
            IterInput.ok ⟨"Music", 4, 5, 6⟩] :=
  c2_loop_survives_exceptions ⟨true, 0, [], 0⟩
    [IterInput.ok ⟨"Speech", 1, 2, 3⟩, IterInput.err,
      IterInput.ok ⟨"Music", 4, 5, 6⟩] rfl

/-! ## Stream lifecycle (`AudioStream.start` / `AudioStream.stop`,
stream.py lines 60-80) -/

/-- Lifecycle state of an `AudioStream`: the `is_running` flag and
whether a worker thread has been spawned. -/
structure StreamCtl where
  isRunning : Bool
  threadSpawned : Bool
  deriving DecidableEq

/-- `AudioStream.start`: when already running it only logs a warning
(second component `true`) and changes nothing; otherwise it sets
`is_running` and spawns the worker thread. -/
def startStream (s : StreamCtl) : StreamCtl × Bool :=
  if s.isRunning then (s, true)
  else ({ isRunning := true, threadSpawned := true }, false)

/-- `AudioStream.stop`: clear `is_running` and `join(timeout=2.0)` the
worker, i.e. wait `min remaining 2` time units where `remaining` is
however long the worker still needs — control returns either way.  The
second component is the time actually spent waiting. -/
def stopStream (s : StreamCtl) (remaining : Nat) : StreamCtl × Nat :=
  ({ s with isRunning := false }, min remaining 2)

/-- C8: `start()` on a running stream is a no-op apart from a warning;
`stop()` clears the running flag, waits at most 2 time units for the
worker and returns regardless of whether the worker finished; and a
second `stop()` leaves the state exactly as the first did. -/
theorem c8_start_noop_stop_idempotent (s : StreamCtl) (r r2 : Nat)
    (hrun : s.isRunning = true) :
    startStream s = (s, true) ∧
    (stopStream s r).1.isRunning = false ∧
    (stopStream s r).2 ≤ 2 ∧
    (stopStream (stopStream s r).1 r2).1 = (stopStream s r).1 := by
  refine ⟨by simp [startStream, hrun], rfl, Nat.min_le_right r 2, rfl⟩

/-- C8 witness: a running stream with a worker needing 5 and then 1 more
time units. -/
theorem c8_witness :
    startStream ⟨true, true⟩ = (⟨true, true⟩, true) ∧
    (stopStream ⟨true, true⟩ 5).1.isRunning = false ∧
    (stopStream ⟨true, true⟩ 5).2 ≤ 2 ∧
    (stopStream (stopStream ⟨true, true⟩ 5).1 1).1 = (stopStream ⟨true, true⟩ 5).1 :=
  c8_start_noop_stop_idempotent ⟨true, true⟩ 5 1 rfl

/-! ## Live-capture worker failure (`AudioStream._mic_worker`, stream.py
lines 97-120, together with `processing_loop`)

The `except` branch of `_mic_worker` logs the device error and sets
`self.is_running = False`; the function then returns — there is no retry.
The processing loop reads the separate module-level `server.is_running`
flag, so the stream's failure leaves it untouched: the loop merely gets
`None` from `get_frame` on every subsequent iteration. -/

/-- The two independent running flags of the pipeline. -/
structure PipelineFlags where
  streamRunning : Bool
  serverRunning : Bool
  deriving DecidableEq

/-- Effect of the `except` branch of `_mic_worker` on the pipeline flags:
only `AudioStream.is_running` is cleared. -/
def micWorkerOnError (f : PipelineFlags) : PipelineFlags :=
  { f with streamRunning := false }

/-- C9: a capture-device error stops the live-capture worker (its running
flag drops to false, and the worker makes no further attempt), while the
processing loop's own flag is untouched: the loop keeps running through
any number of frameless iterations and emits nothing for them. -/
theorem c9_mic_error_stops_only_worker (f : PipelineFlags) (init : LoopState)
    (n : Nat) (hrun : init.running = true) :
    (micWorkerOnError f).streamRunning = false ∧
    (micWorkerOnError f).serverRunning = f.serverRunning ∧
    (runLoop init (List.replicate n IterInput.noFrame)).running = true ∧
    (runLoop init (List.replicate n IterInput.noFrame)).emitted = init.emitted := by
  have hspec := runLoop_spec (List.replicate n IterInput.noFrame) init hrun
  refine ⟨rfl, rfl, hspec.1, ?_⟩
  rw [hspec.2.2.1]
  have hexp : ∀ m k, expectedRecords k (List.replicate m IterInput.noFrame) = [] := by
    intro m
    induction m with
    | zero => intro k; rfl
    | succ m ih => intro k; simpa [List.replicate_succ, expectedRecords] using ih k
  rw [hexp n init.frameCount]
  simp

/-- C9 witness: a failed mic worker next to a loop that sees three empty
timeouts. -/
theorem c9_witness :
    (micWorkerOnError ⟨true, true⟩).streamRunning = false ∧
    (micWorkerOnError ⟨true, true⟩).serverRunning = true ∧
    (runLoop ⟨true, 0, [], 0⟩ (List.replicate 3 IterInput.noFrame)).running = true ∧
    (runLoop ⟨true, 0, [], 0⟩ (List.replicate 3 IterInput.noFrame)).emitted = [] :=
  c9_mic_error_stops_only_worker ⟨true, true⟩ ⟨true, 0, [], 0⟩ 3 rfl

/-! ## Inference input normalization (`YAMNetInference.predict`,
infer_tflite.py lines 75-108)

`if features.shape[0] != 64: logger.warning(...)` — a warning only; then
the time axis is padded with zeros on the right to 96 columns if shorter
and truncated to the first 96 columns if longer; every path returns. -/

/-- `features.shape[1]`: the common length of the rows of the feature
matrix (rows are Mel bands, columns are time frames). -/
def numTimeFrames (features : List (List ℚ)) : Nat :=
  (features.headD []).length

/-- The time-axis crop/pad of `YAMNetInference.predict`
(infer_tflite.py lines 91-94). -/
def cropOrPadTime (features : List (List ℚ)) : List (List ℚ) :=
  if numTimeFrames features < 96 then
    features.map (fun row => row ++ List.replicate (96 - numTimeFrames features) 0)
  else if 96 < numTimeFrames features then
    features.map (fun row => row.take 96)
  else features

/-- The input-preparation phase of `YAMNetInference.predict`: the
normalized matrix handed (transposed, with a batch axis) to the
interpreter, and whether the Mel-band warning fired
(`features.shape[0] != 64`).  Total: no input raises. -/
def predict_prep (features : List (List ℚ)) : List (List ℚ) × Bool :=
  (cropOrPadTime features, features.length != 64)

/-- C10: `predict` silently normalizes the time dimension to exactly 96
columns — matrices with fewer columns are zero-padded on the right, ones
with more are truncated to their first 96 columns — and a Mel-band count
other than 64 only raises the warning flag, never an error. -/
theorem c10_predict_normalizes_time (features : List (List ℚ))
    (huniform : ∀ row ∈ features, row.length = numTimeFrames features) :
    (∀ row ∈ (predict_prep features).1, row.length = 96) ∧
    (numTimeFrames features < 96 →
      (predict_prep features).1
        = features.map (fun row => row ++ List.replicate (96 - numTimeFrames features) 0)) ∧
    (96 < numTimeFrames features →
      (predict_prep features).1 = features.map (fun row => row.take 96)) ∧
    (predict_prep features).2 = (features.length != 64) := by
  refine ⟨?_, ?_, ?_, rfl⟩
  · intro row hrow
    simp only [predict_prep, cropOrPadTime] at hrow
    by_cases hlt : numTimeFrames features < 96
    · rw [if_pos hlt] at hrow
      obtain ⟨r, hr, hrw⟩ := List.mem_map.mp hrow
      subst hrw
      have := huniform r hr
      simp only [List.length_append, List.length_replicate, this]
      omega
    · rw [if_neg hlt] at hrow
      by_cases hgt : 96 < numTimeFrames features
      · rw [if_pos hgt] at hrow
        obtain ⟨r, hr, hrw⟩ := List.mem_map.mp hrow
        subst hrw
        have := huniform r hr
        simp only [List.length_take, this]
        omega
      · rw [if_neg hgt] at hrow
        have := huniform row hrow
        omega
  · intro hlt
    simp only [predict_prep, cropOrPadTime, if_pos hlt]
  · intro hgt
    simp only [predict_prep, cropOrPadTime, if_neg (by omega : ¬numTimeFrames features < 96),
      if_pos hgt]

/-- C10 witness: a 2-band matrix with 2 time frames is zero-padded to 96
columns and flagged for having 2 ≠ 64 Mel bands. -/
theorem c10_witness :
    (∀ row ∈ (predict_prep [[1, 2], [3, 4]]).1, row.length = 96) ∧
    (numTimeFrames [[1, 2], [3, 4]] < 96 →
      (predict_prep [[1, 2], [3, 4]]).1
        = [[(1 : ℚ), 2], [3, 4]].map
            (fun row => row ++ List.replicate (96 - numTimeFrames [[1, 2], [3, 4]]) 0)) ∧
    (96 < numTimeFrames [[1, 2], [3, 4]] →
      (predict_prep [[1, 2], [3, 4]]).1
        = [[(1 : ℚ), 2], [3, 4]].map (fun row => row.take 96)) ∧
    (predict_prep [[1, 2], [3, 4]]).2 = ([[(1 : ℚ), 2], [3, 4]].length != 64) :=
  c10_predict_normalizes_time [[1, 2], [3, 4]] (by decide)

/-! ## Top-k selection (`YAMNetInference.get_top_k`, infer_tflite.py
lines 110-129)

`top_indices = np.argsort(predictions)[-k:][::-1]` followed by a lookup
of `(class_names[idx], predictions[idx])`.  `np.argsort`'s default
`kind='quicksort'` is documented unstable, so the order it gives equal
scores is unspecified for the 521-entry vectors the code sorts; the only
contract is captured by `IsArgsortOf` below (a permutation of
`0 .. n-1`, ascending by score), and the general theorem quantifies over
every index list satisfying it.  The executable `argsort` is one
realization of that contract — the stable one NumPy's insertion sort
produces for arrays below its small-partition threshold (16 elements) —
and is only evaluated on such tiny inputs, where it is faithful.
Python's slice `a[-k:]` is the whole list when `k = 0` (since `-0 == 0`)
and the trailing `min k n` elements otherwise. -/

/-- Stable insertion of index `i` into an ascending (by score) index
list: `i` is placed before the first index whose score strictly exceeds
`s[i]`, hence after every earlier index with an equal score. -/
def insertIdx (s : List ℚ) (i : Nat) : List Nat → List Nat
  | [] => [i]
  | j :: rest =>
    if s.getD i 0 < s.getD j 0 then i :: j :: rest
    else j :: insertIdx s i rest

/-- `np.argsort(s)` as realized in NumPy's small-array insertion-sort
regime: the indices `0 .. n-1` sorted ascending by score, stably.  For
larger arrays the default quicksort may order equal scores differently;
theorems that hold for every `np.argsort` output go through
`IsArgsortOf` instead of this definition. -/
def argsort (s : List ℚ) : List Nat :=
  (List.range s.length).foldl (fun acc i => insertIdx s i acc) []

/-- Python's `a[-k:]`: the whole list when `k = 0` (since `-0 == 0`),
otherwise the trailing `min k (length a)` elements. -/
def lastK (k : Nat) (l : List Nat) : List Nat :=
  if k = 0 then l else l.drop (l.length - k)

/-- `np.argsort(predictions)[-k:][::-1]`. -/
def topKIndices (s : List ℚ) (k : Nat) : List Nat :=
  (lastK k (argsort s)).reverse

/-- `YAMNetInference.get_top_k`. -/
def get_top_k (classNames : List String) (s : List ℚ) (k : Nat) :
    List (String × ℚ) :=
  (topKIndices s k).map (fun i => (classNames.getD i "", s.getD i 0))

/-- Strict ascending order on indices by score, ties by index: the order
realized by a stable ascending argsort. -/
def lexLt (s : List ℚ) (i j : Nat) : Prop :=
  s.getD i 0 < s.getD j 0 ∨ (s.getD i 0 = s.getD j 0 ∧ i < j)

theorem insertIdx_length (s : List ℚ) (i : Nat) (l : List Nat) :
    (insertIdx s i l).length = l.length + 1 := by
  induction l with
  | nil => rfl
  | cons j rest ih =>
    simp only [insertIdx]
    by_cases h : s.getD i 0 < s.getD j 0
    · rw [if_pos h]
      simp
    · rw [if_neg h]
      simp only [List.length_cons, ih]

theorem insertIdx_mem (s : List ℚ) (i : Nat) (l : List Nat) (a : Nat) :
    a ∈ insertIdx s i l ↔ a = i ∨ a ∈ l := by
  induction l with
  | nil => simp [insertIdx]
  | cons j rest ih =>
    simp only [insertIdx]
    by_cases h : s.getD i 0 < s.getD j 0
    · rw [if_pos h]
      simp only [List.mem_cons]
    · rw [if_neg h]
      simp only [List.mem_cons, ih]
      tauto

theorem insertIdx_sorted (s : List ℚ) (i : Nat) (l : List Nat)
    (hs : List.Pairwise (lexLt s) l) (hlt : ∀ j ∈ l, j < i) :
    List.Pairwise (lexLt s) (insertIdx s i l) := by
  induction l with
  | nil => simp [insertIdx]
  | cons j rest ih =>
    rcases List.pairwise_cons.mp hs with ⟨hj, hrest⟩
    by_cases h : s.getD i 0 < s.getD j 0
    · rw [insertIdx, if_pos h]
      refine List.pairwise_cons.mpr ⟨?_, hs⟩
      intro b hb
      rcases List.mem_cons.mp hb with hb | hb
      · subst hb
        exact Or.inl h
      · rcases hj b hb with hjb | ⟨heq, _⟩
        · exact Or.inl (h.trans hjb)
        · exact Or.inl (heq ▸ h)
    · rw [insertIdx, if_neg h]
      refine List.pairwise_cons.mpr ⟨?_, ih hrest (fun b hb => hlt b (by simp [hb]))⟩
      intro b hb
      rcases (insertIdx_mem s i rest b).mp hb with hb | hb
      · subst hb
        rcases lt_or_eq_of_le (not_lt.mp h) with hlt2 | heq
        · exact Or.inl hlt2
        · exact Or.inr ⟨heq, hlt j (by simp)⟩
      · exact hj b hb

theorem foldl_insertIdx_sorted (s : List ℚ) :
    ∀ (is acc : List Nat), List.Pairwise (· < ·) is →
      List.Pairwise (lexLt s) acc →
      (∀ j ∈ acc, ∀ i ∈ is, j < i) →
      List.Pairwise (lexLt s) (is.foldl (fun acc i => insertIdx s i acc) acc) := by
  intro is
  induction is with
  | nil => intro acc _ hacc _; exact hacc
  | cons i rest ih =>
    intro acc his hacc hbound
    rcases List.pairwise_cons.mp his with ⟨hi, hrest⟩
    simp only [List.foldl_cons]
    refine ih (insertIdx s i acc) hrest ?_ ?_
    · exact insertIdx_sorted s i acc hacc (fun j hj => hbound j hj i (by simp))
    · intro j hj i2 hi2
      rcases (insertIdx_mem s i acc j).mp hj with hj | hj
      · subst hj
        exact hi i2 hi2
      · exact hbound j hj i2 (by simp [hi2])

theorem foldl_insertIdx_length (s : List ℚ) :
    ∀ (is acc : List Nat),
      (is.foldl (fun acc i => insertIdx s i acc) acc).length
        = acc.length + is.length := by
  intro is
  induction is with
  | nil => intro acc; simp
  | cons i rest ih =>
    intro acc
    simp only [List.foldl_cons, List.length_cons]
    rw [ih (insertIdx s i acc), insertIdx_length]
    omega

theorem argsort_sorted (s : List ℚ) : List.Pairwise (lexLt s) (argsort s) := by
  refine foldl_insertIdx_sorted s (List.range s.length) [] ?_ ?_ ?_
  · exact List.pairwise_lt_range s.length
  · exact List.Pairwise.nil
  · intro j hj
    simp at hj

theorem argsort_length (s : List ℚ) : (argsort s).length = s.length := by
  unfold argsort
  rw [foldl_insertIdx_length]
  simp

theorem insertIdx_perm (s : List ℚ) (i : Nat) (l : List Nat) :
    (insertIdx s i l).Perm (i :: l) := by
  induction l with
  | nil => exact List.Perm.refl _
  | cons j rest ih =>
    simp only [insertIdx]
    by_cases h : s.getD i 0 < s.getD j 0
    · rw [if_pos h]
    · rw [if_neg h]
      exact (ih.cons j).trans (List.Perm.swap i j rest)

theorem foldl_insertIdx_perm (s : List ℚ) :
    ∀ (is acc : List Nat),
      (is.foldl (fun acc i => insertIdx s i acc) acc).Perm (acc ++ is) := by
  intro is
  induction is with
  | nil => intro acc; simp
  | cons i rest ih =>
    intro acc
    simp only [List.foldl_cons]
    refine (ih (insertIdx s i acc)).trans ?_
    refine ((insertIdx_perm s i acc).append_right rest).trans ?_
    exact List.perm_middle.symm

/-- Modelled from the documented contract of `np.argsort` (any `kind`):
the output is a permutation of `0 .. n-1` listing the indices in
ascending score order.  The relative order of equal scores is not part
of the contract — the default `kind='quicksort'` is documented
unstable — so nothing more may be assumed about the 521-entry score
vectors the code sorts. -/
def IsArgsortOf (s : List ℚ) (idxs : List Nat) : Prop :=
  idxs.Perm (List.range s.length) ∧
  List.Pairwise (fun i j => s.getD i 0 ≤ s.getD j 0) idxs

theorem argsort_isArgsortOf (s : List ℚ) : IsArgsortOf s (argsort s) := by
  constructor
  · unfold argsort
    simpa using foldl_insertIdx_perm s (List.range s.length) []
  · refine (argsort_sorted s).imp ?_
    intro i j hij
    rcases hij with h | ⟨h, _⟩
    · exact le_of_lt h
    · exact le_of_eq h

/-- C7 corrected: the amended top-k property.  For every score vector,
class-name list and `k` with `1 ≤ k ≤` the vector length, `get_top_k`
returns exactly `k` `(label, score)` pairs ordered descending by score.
The property is proved for every index list satisfying the `np.argsort`
contract `IsArgsortOf` — that is, for every tie order the unstable
default sort may produce — and the executable `argsort` meets that
contract, so `get_top_k` inherits both conclusions.  No order among
equal scores is asserted. -/
theorem c7_top_k_k_pairs_descending
    (classNames : List String) (s : List ℚ) (k : Nat)
    (hk1 : 1 ≤ k) (hkn : k ≤ s.length) :
    (∀ idxs : List Nat, IsArgsortOf s idxs →
      ((lastK k idxs).reverse.map
        (fun i => (classNames.getD i "", s.getD i 0))).length = k ∧
      List.Pairwise (fun p q : String × ℚ => q.2 ≤ p.2)
        ((lastK k idxs).reverse.map
          (fun i => (classNames.getD i "", s.getD i 0)))) ∧
    IsArgsortOf s (argsort s) ∧
    (get_top_k classNames s k).length = k ∧
    List.Pairwise (fun p q : String × ℚ => q.2 ≤ p.2)
      (get_top_k classNames s k) := by
  have hk0 : k ≠ 0 := by omega
  have hgen : ∀ idxs : List Nat, IsArgsortOf s idxs →
      ((lastK k idxs).reverse.map
        (fun i => (classNames.getD i "", s.getD i 0))).length = k ∧
      List.Pairwise (fun p q : String × ℚ => q.2 ≤ p.2)
        ((lastK k idxs).reverse.map
          (fun i => (classNames.getD i "", s.getD i 0))) := by
    intro idxs hidx
    obtain ⟨hperm, hasc⟩ := hidx
    have hlen : idxs.length = s.length := by
      simpa using hperm.length_eq
    constructor
    · rw [List.length_map, List.length_reverse]
      unfold lastK
      rw [if_neg hk0]
      simp [hlen]
      omega
    · rw [List.pairwise_map, List.pairwise_reverse]
      unfold lastK
      rw [if_neg hk0]
      exact (hasc.sublist (List.drop_sublist _ _)).imp (fun h => h)
  refine ⟨hgen, argsort_isArgsortOf s, ?_, ?_⟩
  · exact (hgen (argsort s) (argsort_isArgsortOf s)).1
  · exact (hgen (argsort s) (argsort_isArgsortOf s)).2

/-- C7 witness: scores `[0, 1]` with `k = 1`. -/
theorem c7_witness :
    (∀ idxs : List Nat, IsArgsortOf [0, 1] idxs →
      ((lastK 1 idxs).reverse.map
        (fun i => (["class_0", "class_1"].getD i "", [(0 : ℚ), 1].getD i 0))).length = 1 ∧
      List.Pairwise (fun p q : String × ℚ => q.2 ≤ p.2)
        ((lastK 1 idxs).reverse.map
          (fun i => (["class_0", "class_1"].getD i "", [(0 : ℚ), 1].getD i 0)))) ∧
    IsArgsortOf [0, 1] (argsort [0, 1]) ∧
    (get_top_k ["class_0", "class_1"] [0, 1] 1).length = 1 ∧
    List.Pairwise (fun p q : String × ℚ => q.2 ≤ p.2)
      (get_top_k ["class_0", "class_1"] [0, 1] 1) :=
  c7_top_k_k_pairs_descending ["class_0", "class_1"] [0, 1] 1
    (by decide) (by decide)

/-- C7 counterexample: the claim as stated is false on the code.  On the
tied score vector `[0, 0]` with `k = 2`, `get_top_k` returns the pair of
the larger index `1` before that of the smaller (first-seen) index `0`,
not the first-seen pair first — at this size NumPy's introsort runs its
stable insertion sort, which the executable `argsort` matches exactly.
And with `k = 0 ≤ length`, `a[-0:]` is the whole array, so 2 pairs come
back instead of exactly `k = 0`. -/
theorem c7_counterexample :
    get_top_k ["class_0", "class_1"] [0, 0] 2
      = [("class_1", 0), ("class_0", 0)] ∧
    get_top_k ["class_0", "class_1"] [0, 0] 2
      ≠ [("class_0", 0), ("class_1", 0)] ∧
    (get_top_k ["class_0", "class_1"] [0, 0] 0).length = 2 := by
  refine ⟨by decide, by decide, by decide⟩

end AED
